import Mathlib

/-!
Shallow embedding of `psycopg/types/ltree.py`: the `Ltree` and `Lquery`
value types, the `Star` wildcard term, their parsing, rendering, fusion,
comparison and indexing operations, and the text codec glue.

Strings are modelled as `List Char` (Python `str`, compared by code
points); Python exceptions are modelled with `Except`/`Option`.
-/

namespace PsycopgLtree

/-- The `\x7b` character (opening curly brace). -/
def lbrace : Char := Char.ofNat 123

/-- The `\x7d` character (closing curly brace). -/
def rbrace : Char := Char.ofNat 125

/-- Characters admitted by `re_ltree = ^[a-zA-Z0-9_]+$` (per character). -/
def isWordChar (c : Char) : Bool := c.isAlphanum || c = '_'

/-- Characters admitted by `re_lquery = ^[a-zA-Z0-9_\|]+$` (per character). -/
def isQWordChar (c : Char) : Bool := c.isAlphanum || c = '_' || c = '|'

/-- Value of a digit string, as computed by Python `int()` on a
string of decimal digits. -/
def digitsToNat (l : List Char) : Nat :=
  l.foldl (fun a c => 10 * a + (c.toNat - 48)) 0

/-- Decimal rendering of a natural number, as `"%d" % n` produces. -/
def natDigits (n : Nat) : List Char :=
  if _h : n < 10 then [Nat.digitChar n]
  else natDigits (n / 10) ++ [Nat.digitChar (n % 10)]
decreasing_by exact Nat.div_lt_self (by omega) (by omega)

/-- Decimal rendering of an integer, as `"%d" % i` produces. -/
def intDigits (i : Int) : List Char :=
  if i < 0 then '-' :: natDigits i.natAbs else natDigits i.toNat

/-- Python `str.split(sep)` for a one-character separator: `""` splits
to `[""]`, and every separator occurrence opens a new piece. -/
def splitOnChar (sep : Char) : List Char → List (List Char)
  | [] => [[]]
  | c :: rest =>
    let r := splitOnChar sep rest
    if c = sep then [] :: r
    else
      match r with
      | h :: t => (c :: h) :: t
      | [] => [[c]]

/-- Python `sep.join(pieces)` for a one-character separator. -/
def joinSep (sep : Char) : List (List Char) → List Char
  | [] => []
  | [l] => l
  | l :: rest => l ++ sep :: joinSep sep rest

/-- Sequential effectful map, modelling a Python generator consumed by
`list.extend`: the first raised error aborts the whole construction. -/
def exceptMapM {α β : Type} (f : α → Except String β) : List α → Except String (List β)
  | [] => .ok []
  | x :: xs =>
    match f x with
    | .error e => .error e
    | .ok y =>
      match exceptMapM f xs with
      | .error e => .error e
      | .ok ys => .ok (y :: ys)

/-- The `Star` wildcard term: a `namedtuple("Star", "min max")` whose
fields are optional integers. -/
structure Star where
  min : Option Int
  max : Option Int
deriving DecidableEq, Repr

/-- `None if not b else int(b)`: the falsy values `None` and `0` both
normalize to `None`, as in `Star.__new__`. -/
def starBound : Option Int → Option Int
  | none => none
  | some i => if i = 0 then none else some i

/-- `Star.__new__`: both bounds pass through the falsy-zero
normalization before being stored. -/
def Star.new (mn mx : Option Int) : Star := ⟨starBound mn, starBound mx⟩

/-- The third `re_star` alternative, `\d* , \d*`, applied to the text
between the braces, already split on commas: it matches exactly when
there is a single comma and both sides are (possibly empty) digit
runs, an empty side meaning an absent bound. -/
def parseComma : List (List Char) → Option Star
  | [a, b] =>
    if a.all Char.isDigit ∧ b.all Char.isDigit then
      some (Star.new
        (if a = [] then none else some (digitsToNat a))
        (if b = [] then none else some (digitsToNat b)))
    else none
  | _ => none

/-- The braced `re_star` alternatives for an input of shape
`c0 :: c1 :: rest`: the input must be `* \x7b inner \x7d` with `inner`
either a non-empty digit run (`*\x7b n \x7d`, second alternative) or a
comma form (third alternative, via `parseComma`). -/
def parseBody (c0 c1 : Char) (rest : List Char) : Option Star :=
  if c0 = '*' ∧ c1 = lbrace ∧ rest.getLast? = some rbrace then
    if rest.dropLast ≠ [] ∧ rest.dropLast.all Char.isDigit then
      some (Star.new (some (digitsToNat rest.dropLast)) (some (digitsToNat rest.dropLast)))
    else parseComma (splitOnChar ',' rest.dropLast)
  else none

/-- `Star.parse`: anchored match of `*`, `*\x7b digits \x7d`, or
`*\x7b digits? , digits? \x7d`; anything else is `none` ("not a
wildcard"), never an error. -/
def Star.parse (l : List Char) : Option Star :=
  if l = ['*'] then some (Star.new none none)
  else
    match l with
    | c0 :: c1 :: rest => parseBody c0 c1 rest
    | _ => none

/-- `Star.merge`: `min = ((self.min or 0) + (other.min or 0)) or None`;
`max = None if (self.max is None or other.max is None) else self.max +
other.max`; the result goes through the `Star` constructor again. -/
def Star.merge (s t : Star) : Star :=
  let mn : Int := s.min.getD 0 + t.min.getD 0
  let newMin : Option Int := if mn = 0 then none else some mn
  let newMax : Option Int :=
    match s.max, t.max with
    | some a, some b => some (a + b)
    | _, _ => none
  Star.new newMin newMax

/-- `Star.__str__` as the literal cascade of guards of the source; the
final `none` is the `assert False, "wat?"` fall-through. Inner `none`
branches are unreachable value extractions under their guard. -/
def Star.strPy (s : Star) : Option (List Char) :=
  if s.min = none ∧ s.max = none then some ['*']
  else if s.min ≠ none ∧ s.max ≠ none then
    match s.min, s.max with
    | some n, some m =>
      if n = m then some ('*' :: lbrace :: (intDigits n ++ [rbrace]))
      else some ('*' :: lbrace :: (intDigits n ++ ',' :: intDigits m ++ [rbrace]))
    | _, _ => none
  else if s.min ≠ none then
    match s.min with
    | some n => some ('*' :: lbrace :: (intDigits n ++ [',', rbrace]))
    | none => none
  else if s.max ≠ none then
    match s.max with
    | some m => some ('*' :: lbrace :: ',' :: (intDigits m ++ [rbrace]))
    | none => none
  else none

/-- Total rendering of a `Star` (the assertion case yields `[]`). -/
def Star.render (s : Star) : List Char := (Star.strPy s).getD []

/-- Bound positivity: every bound, when present, is a positive integer.
This holds for every `Star` obtained from `Star.new` with non-negative
inputs, from `Star.parse`, or from `Star.merge` of such stars. -/
def posBound : Option Int → Bool
  | none => true
  | some i => decide (0 < i)

/-- Well-formedness of a `Star` value: both bounds positive-or-absent. -/
def Star.wfb (s : Star) : Bool := posBound s.min && posBound s.max

/-- A label of an `Ltree`: a Python string. -/
abbrev Label := List Char

/-- The `Ltree` value: the tuple of validated labels it wraps. -/
abbrev Ltree := List Label

/-- The inner `_label` helper of `Ltree.__new__`, applied to a string
piece: `""` is elided (`none`), a `re_ltree` match is kept, anything
else raises `ValueError`. -/
def ltreeLabel (s : List Char) : Except String (Option Label) :=
  if s = [] then .ok none
  else if s.all isWordChar then .ok (some s)
  else .error "ltree label not valid"

/-- `Ltree.__new__` applied to one already-split list of string pieces:
validate each piece in order, then drop the elided ones. -/
def Ltree.fromPieces (pieces : List (List Char)) : Except String Ltree :=
  match exceptMapM ltreeLabel pieces with
  | .error e => .error e
  | .ok opts => .ok (opts.filterMap id)

/-- `Ltree.__new__` applied to a single string argument: split on `.`
and process the pieces. -/
def Ltree.fromString (s : List Char) : Except String Ltree :=
  Ltree.fromPieces (splitOnChar '.' s)

/-- `Ltree.__str__`: labels joined with dots. -/
def Ltree.toText (t : Ltree) : List Char := joinSep '.' t

/-- Well-formedness of an `Ltree` value: every stored label is a
non-empty `re_ltree` match (the `Ltree.__new__` postcondition). -/
def Ltree.wfb (t : Ltree) : Bool := t.all fun l => !l.isEmpty && l.all isWordChar

/-- A query label: `Union[Star, str]`. -/
inductive QueryLabel where
  | label (s : List Char)
  | star (s : Star)
deriving DecidableEq, Repr

/-- Does a query label hold a `Star`? (`isinstance(x, Star)`). -/
def isStar : QueryLabel → Bool
  | .star _ => true
  | .label _ => false

/-- The inner `_label` helper of `Lquery.__new__` applied to a string
piece: `""` elides, a `re_lquery` match is a label, a `Star.parse`
success is a wildcard, anything else raises `ValueError`. -/
def lqueryLabel (s : List Char) : Except String (Option QueryLabel) :=
  if s = [] then .ok none
  else if s.all isQWordChar then .ok (some (.label s))
  else
    match Star.parse s with
    | some st => .ok (some (.star st))
    | none => .error "lquery label not valid"

/-- One step of the `Lquery._merge_labels` loop: skip `None`; if the
output is empty append; if the last stored element and the candidate
are both `Star`s replace the last by their merge; otherwise append. -/
def pushLabel (rv : List QueryLabel) (x : QueryLabel) : List QueryLabel :=
  match rv.getLast? with
  | none => [x]
  | some last =>
    match last, x with
    | .star a, .star b => rv.dropLast ++ [.star (a.merge b)]
    | _, _ => rv ++ [x]

/-- One iteration of the `Lquery._merge_labels` loop body, including
the `if i is None: continue` elision. -/
def mergeStep (rv : List QueryLabel) : Option QueryLabel → List QueryLabel
  | none => rv
  | some x => pushLabel rv x

/-- `Lquery._merge_labels`: the fusion pass over the flat candidate
list (elided candidates included as `none`). -/
def mergeLabels (labels : List (Option QueryLabel)) : List QueryLabel :=
  labels.foldl mergeStep []

/-- The `Lquery` value: the tuple of query labels it wraps. -/
abbrev Lquery := List QueryLabel

/-- `Lquery.__new__` applied to one already-split list of string
pieces: validate each piece, then run the fusion pass. -/
def Lquery.fromPieces (pieces : List (List Char)) : Except String Lquery :=
  match exceptMapM lqueryLabel pieces with
  | .error e => .error e
  | .ok opts => .ok (mergeLabels opts)

/-- `Lquery.__new__` applied to a single string argument. -/
def Lquery.fromString (s : List Char) : Except String Lquery :=
  Lquery.fromPieces (splitOnChar '.' s)

/-- `str(i)` for one stored element of an `Lquery`. -/
def QueryLabel.render : QueryLabel → List Char
  | .label s => s
  | .star st => st.render

/-- `Lquery.__str__`: rendered elements joined with dots. -/
def Lquery.toText (q : Lquery) : List Char := joinSep '.' (q.map QueryLabel.render)

/-- `_label(i)` applied to one element of an existing `Lquery` during
re-construction (as `Lquery.__add__` does): a string element is
revalidated directly, a `Star` element is stringified and reparsed. -/
def qlabelElem : QueryLabel → Except String (Option QueryLabel)
  | .label s => lqueryLabel s
  | .star st => lqueryLabel st.render

/-- `Lquery.__add__` with another `Lquery` (and, symmetrically,
`__radd__`): `Lquery(self, other)` re-processes every element of both
operands and re-runs the fusion pass across the join boundary. -/
def Lquery.add (a b : Lquery) : Except String Lquery :=
  match exceptMapM qlabelElem a with
  | .error e => .error e
  | .ok la =>
    match exceptMapM qlabelElem b with
    | .error e => .error e
    | .ok lb => .ok (mergeLabels (la ++ lb))

/-- Well-formedness of an `Lquery` element: a label is a non-empty
`re_lquery` match, a wildcard is a well-formed `Star`. -/
def QueryLabel.wfb : QueryLabel → Bool
  | .label s => !s.isEmpty && s.all isQWordChar
  | .star st => st.wfb

/-- Well-formedness of an `Lquery` value (the `Lquery.__new__`
postcondition, fusion aside). -/
def Lquery.wfb (q : Lquery) : Bool := q.all QueryLabel.wfb

/-- No two adjacent elements are both wildcards: the fusion invariant. -/
def noAdjStars : List QueryLabel → Bool
  | a :: b :: rest => (!(isStar a && isStar b)) && noAdjStars (b :: rest)
  | _ => true

/-- The fusion invariant as a relation between adjacent elements. -/
def notBothStar (x y : QueryLabel) : Prop := ¬ (isStar x = true ∧ isStar y = true)

/-- `tuple.__lt__` restricted to equal-typed elements: find the first
elementwise difference (by `==`), decide by `<` there; if one side is
exhausted first, the shorter tuple is smaller. -/
def pyTupleLtB {α : Type} [DecidableEq α] (ltb : α → α → Bool) : List α → List α → Bool
  | _, [] => false
  | [], _ :: _ => true
  | a :: as, b :: bs => if a = b then pyTupleLtB ltb as bs else ltb a b

/-- Python `str.__lt__`: code-point lexicographic comparison. -/
def pyStrLt : List Char → List Char → Bool :=
  pyTupleLtB fun c d => decide (c < d)

/-- `Ltree.__lt__` between two `Ltree` values: `tuple.__lt__`. -/
def Ltree.lt (t u : Ltree) : Bool := pyTupleLtB pyStrLt t u

/-- Python `<` on two optional integers: `None` on either side (with
the other side differing) is a `TypeError`, modelled as `.error ()`. -/
def pyOptIntLt : Option Int → Option Int → Except Unit Bool
  | some a, some b => .ok (decide (a < b))
  | _, _ => .error ()

/-- `Star < Star`: `namedtuple` comparison of the `(min, max)` pairs,
equality first at each position, `TypeError` when a deciding position
compares `None` with an integer. -/
def starLtPy (s t : Star) : Except Unit Bool :=
  if s.min = t.min then
    if s.max = t.max then .ok false
    else pyOptIntLt s.max t.max
  else pyOptIntLt s.min t.min

/-- Python `<` on two `Lquery` elements: strings compare as strings,
`Star`s as `(min, max)` tuples, and a string against a `Star` is a
`TypeError`. -/
def qlabelLtPy : QueryLabel → QueryLabel → Except Unit Bool
  | .label a, .label b => .ok (pyStrLt a b)
  | .star a, .star b => starLtPy a b
  | _, _ => .error ()

/-- `tuple.__lt__` where the elementwise comparison may raise. -/
def pyTupleLtE {α : Type} [DecidableEq α] (ltb : α → α → Except Unit Bool) :
    List α → List α → Except Unit Bool
  | _, [] => .ok false
  | [], _ :: _ => .ok true
  | a :: as, b :: bs => if a = b then pyTupleLtE ltb as bs else ltb a b

/-- `Lquery < Lquery`: the inherited `tuple.__lt__` (the class defines
no `__lt__` of its own). -/
def Lquery.lt (a b : Lquery) : Except Unit Bool := pyTupleLtE qlabelLtPy a b

/-- A right-hand operand of `Ltree.__eq__`: an `Ltree`, a string, or a
raw sequence of string elements dispatched to the constructor. -/
inductive PyRhs where
  | tree (t : Ltree)
  | str (s : List Char)
  | seq (ls : List (List Char))

/-- `Ltree.__new__` applied to a sequence argument: each element is
validated individually (no splitting on dots). -/
def Ltree.fromLabels (ls : List (List Char)) : Except String Ltree :=
  match exceptMapM ltreeLabel ls with
  | .error e => .error e
  | .ok opts => .ok (opts.filterMap id)

/-- `Ltree.__eq__`: another `Ltree` compares as tuples; a string
compares against the dot-joined rendering; anything else is coerced
through the `Ltree` constructor first (which may raise). -/
def Ltree.eqPy (t : Ltree) : PyRhs → Except String Bool
  | .tree u => .ok (t == u)
  | .str s => .ok (t.toText == s)
  | .seq ls =>
    match Ltree.fromLabels ls with
    | .error e => .error e
    | .ok u => .ok (t == u)

/-- Python sequence index resolution: a negative index counts from the
end of a sequence of length `n`. -/
def pyIndex (n : Nat) (i : Int) : Int := if i < 0 then i + n else i

/-- `Ltree.__getitem__` with an integer index: Python tuple indexing
(negative indices count from the end, out of range raises
`IndexError`). -/
def Ltree.getItemPy (t : Ltree) (i : Int) : Except String Label :=
  if 0 ≤ pyIndex t.length i ∧ pyIndex t.length i < (t.length : Int) then
    .ok (t.getD (pyIndex t.length i).toNat [])
  else .error "IndexError"

/-- Python slice bound clamping for a sequence of length `n` (step 1):
a negative bound counts from the end and clips at 0, a non-negative
bound clips at `n`. -/
def pyClamp (n : Nat) (i : Int) : Nat :=
  if i < 0 then (i + n).toNat else Min.min i.toNat n

/-- A missing slice start defaults to 0. -/
def pySliceStart (n : Nat) : Option Int → Nat
  | none => 0
  | some i => pyClamp n i

/-- A missing slice stop defaults to `n`. -/
def pySliceStop (n : Nat) : Option Int → Nat
  | none => n
  | some i => pyClamp n i

/-- Python slice extraction `t[a:b]` (step 1): the elements with index
in `[start, stop)` after clamping. Never an error, whatever `a`, `b`. -/
def pySlice {α : Type} (t : List α) (a b : Option Int) : List α :=
  (t.drop (pySliceStart t.length a)).take (pySliceStop t.length b - pySliceStart t.length a)

/-- `Ltree.__getitem__` with a slice: `Ltree(tuple.__getitem__(self,
x))` — extract, then re-run the constructor on the extracted labels. -/
def Ltree.slicePy (t : Ltree) (a b : Option Int) : Except String Ltree :=
  Ltree.fromLabels (pySlice t a b)

/-- `Ltree.__hash__` is `return hash(self)`, which dispatches back to
itself: with any recursion budget `fuel`, evaluation consumes the
budget without ever producing a value. -/
def Ltree.hashPy (t : Ltree) : Nat → Option Int
  | 0 => none
  | fuel + 1 => Ltree.hashPy t fuel

/-- `Lquery.__hash__` is the same unconditional self-call. -/
def Lquery.hashPy (q : Lquery) : Nat → Option Int
  | 0 => none
  | fuel + 1 => Lquery.hashPy q fuel

/-- `BaseLtreeDumper.dump`: `str(obj).encode("utf8")`; the byte layer
is the identity on the rendered text. -/
def BaseLtreeDumper.dump (t : Ltree) : List Char := t.toText

/-- `LtreeLoader.load`: decode the text and hand the single string to
the `Ltree` constructor. -/
def LtreeLoader.load (data : List Char) : Except String Ltree := Ltree.fromString data

/-- Is every element of a pattern a plain label (no wildcards)? -/
def labelOnly (q : Lquery) : Bool := q.all fun x => !(isStar x)

/-- The spec-side strict order on query labels: two labels compare as
strings (lexicographically by code point); no other pair is related. -/
def qlabelLex : QueryLabel → QueryLabel → Prop
  | .label s, .label t => List.Lex (· < ·) s t
  | _, _ => False

/-- The spec's merged lower bound: the sum of the mins, `none` when
both are `none` (a missing min counts as 0 in the sum). -/
def mergeSpecMin : Option Int → Option Int → Option Int
  | none, none => none
  | a, b => some (a.getD 0 + b.getD 0)

/-- The spec's merged upper bound: the sum when both are present,
`none` (unbounded) when either side is unbounded. -/
def mergeSpecMax : Option Int → Option Int → Option Int
  | some x, some y => some (x + y)
  | _, _ => none

section Lemmas

/-! ### Decimal digit lemmas -/

theorem digitChar_isDigit : ∀ d : Nat, d < 10 → (Nat.digitChar d).isDigit = true := by decide

theorem digitChar_toNat : ∀ d : Nat, d < 10 → (Nat.digitChar d).toNat - 48 = d := by decide

theorem natDigits_ne_nil (n : Nat) : natDigits n ≠ [] := by
  rw [natDigits]
  split
  · simp
  · simp

theorem natDigits_all_digit (n : Nat) : (natDigits n).all Char.isDigit = true := by
  induction n using Nat.strong_induction_on with
  | _ n ih =>
    rw [natDigits]
    split
    · next h => simp [digitChar_isDigit n h]
    · next h =>
      rw [List.all_append]
      have h1 := ih (n / 10) (Nat.div_lt_self (by omega) (by omega))
      have h2 := digitChar_isDigit (n % 10) (Nat.mod_lt _ (by omega))
      simp [h1, h2]

theorem digitsToNat_concat (xs : List Char) (c : Char) :
    digitsToNat (xs ++ [c]) = 10 * digitsToNat xs + (c.toNat - 48) := by
  unfold digitsToNat
  rw [List.foldl_append]
  rfl

theorem digitsToNat_natDigits (n : Nat) : digitsToNat (natDigits n) = n := by
  induction n using Nat.strong_induction_on with
  | _ n ih =>
    rw [natDigits]
    split
    · next h =>
      show digitsToNat ([] ++ [Nat.digitChar n]) = n
      rw [digitsToNat_concat]
      have := digitChar_toNat n h
      simp [digitsToNat, this]
    · next h =>
      rw [digitsToNat_concat]
      rw [ih (n / 10) (Nat.div_lt_self (by omega) (by omega))]
      rw [digitChar_toNat (n % 10) (Nat.mod_lt _ (by omega))]
      omega

theorem not_mem_of_all_digit {l : List Char} {c : Char}
    (hall : l.all Char.isDigit = true) (hc : c.isDigit = false) : c ∉ l := by
  intro hmem
  rw [List.all_eq_true] at hall
  have := hall c hmem
  rw [hc] at this
  exact Bool.noConfusion this

theorem intDigits_nonneg (n : Int) (h : 0 ≤ n) : intDigits n = natDigits n.toNat := by
  unfold intDigits
  rw [if_neg (by omega)]

/-! ### `str.split` / `str.join` lemmas -/

theorem splitOnChar_not_mem {sep : Char} {l : List Char} (h : sep ∉ l) :
    splitOnChar sep l = [l] := by
  induction l with
  | nil => rfl
  | cons c rest ih =>
    have hc : ¬ c = sep := fun e => h (e ▸ List.mem_cons_self c rest)
    have hrest : sep ∉ rest := fun hm => h (List.mem_cons_of_mem _ hm)
    simp only [splitOnChar]
    rw [if_neg hc, ih hrest]

theorem splitOnChar_append {sep : Char} {l₁ : List Char} (l₂ : List Char) (h : sep ∉ l₁) :
    splitOnChar sep (l₁ ++ sep :: l₂) = l₁ :: splitOnChar sep l₂ := by
  induction l₁ with
  | nil =>
    show splitOnChar sep (sep :: l₂) = [] :: splitOnChar sep l₂
    simp [splitOnChar]
  | cons c rest ih =>
    have hc : ¬ c = sep := fun e => h (e ▸ List.mem_cons_self c rest)
    have hrest : sep ∉ rest := fun hm => h (List.mem_cons_of_mem _ hm)
    simp only [List.cons_append, splitOnChar, List.append_eq]
    rw [if_neg hc, ih hrest]

theorem joinSep_cons_cons (sep : Char) (r r2 : List Char) (rest : List (List Char)) :
    joinSep sep (r :: r2 :: rest) = r ++ sep :: joinSep sep (r2 :: rest) := rfl

theorem splitOnChar_joinSep {sep : Char} :
    ∀ rs : List (List Char), rs ≠ [] → (∀ r ∈ rs, sep ∉ r) →
      splitOnChar sep (joinSep sep rs) = rs := by
  intro rs
  induction rs with
  | nil => intro h; exact absurd rfl h
  | cons r rest ih =>
    intro _ hmem
    cases rest with
    | nil =>
      show splitOnChar sep r = [r]
      exact splitOnChar_not_mem (hmem r (List.mem_cons_self _ _))
    | cons r2 rest2 =>
      rw [joinSep_cons_cons, splitOnChar_append _ (hmem r (List.mem_cons_self _ _))]
      rw [ih (by simp) (fun x hx => hmem x (List.mem_cons_of_mem _ hx))]

/-! ### `Star` parsing and rendering lemmas -/

theorem Star.parse_cons2 (c0 c1 : Char) (rest : List Char) :
    Star.parse (c0 :: c1 :: rest) =
      if (c0 :: c1 :: rest : List Char) = ['*'] then some (Star.new none none)
      else parseBody c0 c1 rest := rfl

theorem parseComma_pair (a b : List Char) :
    parseComma [a, b] =
      if a.all Char.isDigit ∧ b.all Char.isDigit then
        some (Star.new
          (if a = [] then none else some (digitsToNat a))
          (if b = [] then none else some (digitsToNat b)))
      else none := rfl

theorem starNew_pos {n : Int} (h : 0 < n) : starBound (some n) = some n := by
  simp only [starBound]
  rw [if_neg (by omega : ¬ n = 0)]

theorem parse_exact_int (n : Int) (h : 0 < n) :
    Star.parse ('*' :: lbrace :: (intDigits n ++ [rbrace])) = some ⟨some n, some n⟩ := by
  rw [intDigits_nonneg n (le_of_lt h)]
  have hne : ('*' :: lbrace :: (natDigits n.toNat ++ [rbrace]) : List Char) ≠ ['*'] := by simp
  rw [Star.parse_cons2, if_neg hne]
  unfold parseBody
  rw [if_pos ⟨rfl, rfl, List.getLast?_concat _⟩, List.dropLast_concat]
  rw [if_pos ⟨natDigits_ne_nil _, natDigits_all_digit _⟩]
  rw [digitsToNat_natDigits]
  have hn : ((n.toNat : Int)) = n := Int.toNat_of_nonneg (le_of_lt h)
  rw [hn]
  show some (Star.new (some n) (some n)) = _
  rw [Star.new, starNew_pos h]

theorem parse_min_int (n : Int) (h : 0 < n) :
    Star.parse ('*' :: lbrace :: (intDigits n ++ [',', rbrace])) = some ⟨some n, none⟩ := by
  rw [intDigits_nonneg n (le_of_lt h)]
  have hsplit : natDigits n.toNat ++ [',', rbrace] = (natDigits n.toNat ++ [',']) ++ [rbrace] := by
    simp
  rw [hsplit]
  have hne : ('*' :: lbrace :: ((natDigits n.toNat ++ [',']) ++ [rbrace]) : List Char) ≠ ['*'] := by
    simp
  rw [Star.parse_cons2, if_neg hne]
  unfold parseBody
  rw [if_pos ⟨rfl, rfl, List.getLast?_concat _⟩, List.dropLast_concat]
  have hnotdig : ((natDigits n.toNat ++ [',']).all Char.isDigit) = false := by
    rw [List.all_append]
    simp [(by decide : (',' : Char).isDigit = false)]
  rw [if_neg (by simp [hnotdig])]
  have hmem : (',' : Char) ∉ natDigits n.toNat :=
    not_mem_of_all_digit (natDigits_all_digit _) (by decide)
  rw [show (natDigits n.toNat ++ [','] : List Char) = natDigits n.toNat ++ ',' :: [] from rfl]
  rw [splitOnChar_append _ hmem]
  rw [show splitOnChar ',' [] = [[]] from rfl, parseComma_pair]
  rw [if_pos ⟨natDigits_all_digit _, rfl⟩]
  rw [if_neg (natDigits_ne_nil _), if_pos rfl]
  rw [digitsToNat_natDigits]
  have hn : ((n.toNat : Int)) = n := Int.toNat_of_nonneg (le_of_lt h)
  rw [hn]
  show some (Star.new (some n) none) = _
  rw [Star.new, starNew_pos h]
  rfl

theorem parse_max_int (m : Int) (h : 0 < m) :
    Star.parse ('*' :: lbrace :: ',' :: (intDigits m ++ [rbrace])) = some ⟨none, some m⟩ := by
  rw [intDigits_nonneg m (le_of_lt h)]
  have hsplit : (',' :: (natDigits m.toNat ++ [rbrace]) : List Char)
      = (',' :: natDigits m.toNat) ++ [rbrace] := by simp
  rw [hsplit]
  have hne : ('*' :: lbrace :: ((',' :: natDigits m.toNat) ++ [rbrace]) : List Char) ≠ ['*'] := by
    simp
  rw [Star.parse_cons2, if_neg hne]
  unfold parseBody
  rw [if_pos ⟨rfl, rfl, List.getLast?_concat _⟩, List.dropLast_concat]
  have hnotdig : ((',' :: natDigits m.toNat).all Char.isDigit) = false := by
    simp [(by decide : (',' : Char).isDigit = false)]
  rw [if_neg (by simp [hnotdig])]
  have hmem : (',' : Char) ∉ natDigits m.toNat :=
    not_mem_of_all_digit (natDigits_all_digit _) (by decide)
  have hstep : splitOnChar ',' (',' :: natDigits m.toNat) = [] :: splitOnChar ',' (natDigits m.toNat) := by
    simp [splitOnChar]
  rw [hstep, splitOnChar_not_mem hmem, parseComma_pair]
  rw [if_pos ⟨rfl, natDigits_all_digit _⟩]
  rw [if_pos rfl, if_neg (natDigits_ne_nil _)]
  rw [digitsToNat_natDigits]
  have hm : ((m.toNat : Int)) = m := Int.toNat_of_nonneg (le_of_lt h)
  rw [hm]
  show some (Star.new none (some m)) = _
  rw [Star.new, starNew_pos h]
  rfl

theorem parse_range_int (n m : Int) (hn : 0 < n) (hm : 0 < m) :
    Star.parse ('*' :: lbrace :: (intDigits n ++ ',' :: intDigits m ++ [rbrace]))
      = some ⟨some n, some m⟩ := by
  rw [intDigits_nonneg n (le_of_lt hn), intDigits_nonneg m (le_of_lt hm)]
  have hsplit : (natDigits n.toNat ++ ',' :: natDigits m.toNat ++ [rbrace] : List Char)
      = (natDigits n.toNat ++ ',' :: natDigits m.toNat) ++ [rbrace] := by simp
  rw [hsplit]
  have hne : ('*' :: lbrace :: ((natDigits n.toNat ++ ',' :: natDigits m.toNat) ++ [rbrace]) : List Char)
      ≠ ['*'] := by simp
  rw [Star.parse_cons2, if_neg hne]
  unfold parseBody
  rw [if_pos ⟨rfl, rfl, List.getLast?_concat _⟩, List.dropLast_concat]
  have hnotdig : ((natDigits n.toNat ++ ',' :: natDigits m.toNat).all Char.isDigit) = false := by
    rw [List.all_append]
    simp [(by decide : (',' : Char).isDigit = false)]
  rw [if_neg (by simp [hnotdig])]
  have hmem : (',' : Char) ∉ natDigits n.toNat :=
    not_mem_of_all_digit (natDigits_all_digit _) (by decide)
  have hmem2 : (',' : Char) ∉ natDigits m.toNat :=
    not_mem_of_all_digit (natDigits_all_digit _) (by decide)
  rw [splitOnChar_append _ hmem, splitOnChar_not_mem hmem2, parseComma_pair]
  rw [if_pos ⟨natDigits_all_digit _, natDigits_all_digit _⟩]
  rw [if_neg (natDigits_ne_nil _), if_neg (natDigits_ne_nil _)]
  rw [digitsToNat_natDigits, digitsToNat_natDigits]
  have hn2 : ((n.toNat : Int)) = n := Int.toNat_of_nonneg (le_of_lt hn)
  have hm2 : ((m.toNat : Int)) = m := Int.toNat_of_nonneg (le_of_lt hm)
  rw [hn2, hm2]
  show some (Star.new (some n) (some m)) = _
  rw [Star.new, starNew_pos hn, starNew_pos hm]

theorem render_none_none : Star.render ⟨none, none⟩ = ['*'] := rfl

theorem render_min_only (n : Int) :
    Star.render ⟨some n, none⟩ = '*' :: lbrace :: (intDigits n ++ [',', rbrace]) := rfl

theorem render_max_only (m : Int) :
    Star.render ⟨none, some m⟩ = '*' :: lbrace :: ',' :: (intDigits m ++ [rbrace]) := rfl

theorem render_exact (n : Int) :
    Star.render ⟨some n, some n⟩ = '*' :: lbrace :: (intDigits n ++ [rbrace]) := by
  simp [Star.render, Star.strPy]

theorem render_range (n m : Int) (h : ¬ n = m) :
    Star.render ⟨some n, some m⟩
      = '*' :: lbrace :: (intDigits n ++ ',' :: intDigits m ++ [rbrace]) := by
  simp [Star.render, Star.strPy, h]

/-- The rendering cascade of `Star.__str__` is exhaustive: no `Star`
value reaches the `assert False, "wat?"` fall-through (nor either
unreachable extraction branch). -/
theorem strPy_isSome (s : Star) : (Star.strPy s).isSome = true := by
  obtain ⟨mn, mx⟩ := s
  cases mn <;> cases mx <;> simp [Star.strPy]
  next n m => split <;> simp

/-- Rendering, then reparsing, recovers any well-formed `Star`. -/
theorem Star.parse_render (s : Star) (h : s.wfb = true) : Star.parse s.render = some s := by
  obtain ⟨mn, mx⟩ := s
  rw [Star.wfb, Bool.and_eq_true] at h
  obtain ⟨h1, h2⟩ := h
  cases mn <;> cases mx
  · rfl
  · next m =>
    have hm : 0 < m := by simpa [posBound] using h2
    rw [render_max_only, parse_max_int m hm]
  · next n =>
    have hn : 0 < n := by simpa [posBound] using h1
    rw [render_min_only, parse_min_int n hn]
  · next n m =>
    have hn : 0 < n := by simpa [posBound] using h1
    have hm : 0 < m := by simpa [posBound] using h2
    by_cases hnm : n = m
    · subst hnm
      rw [render_exact, parse_exact_int n hn]
    · rw [render_range n m hnm, parse_range_int n m hn hm]

/-- Every rendered `Star` starts with the `*` character. -/
theorem render_head (s : Star) : ∃ tl, Star.render s = '*' :: tl := by
  obtain ⟨mn, mx⟩ := s
  cases mn <;> cases mx
  · exact ⟨_, rfl⟩
  · exact ⟨_, rfl⟩
  · exact ⟨_, rfl⟩
  · next n m =>
    by_cases hnm : n = m
    · subst hnm; exact ⟨_, render_exact n⟩
    · exact ⟨_, render_range n m hnm⟩

theorem render_ne_nil (s : Star) : Star.render s ≠ [] := by
  obtain ⟨tl, htl⟩ := render_head s
  simp [htl]

theorem render_not_all_qword (s : Star) : (Star.render s).all isQWordChar = false := by
  obtain ⟨tl, htl⟩ := render_head s
  rw [htl, List.all_cons]
  simp [isQWordChar]

theorem mem_intDigits_digit {i : Int} (hi : 0 < i) {c : Char} (hc : c ∈ intDigits i) :
    c.isDigit = true := by
  rw [intDigits_nonneg i (le_of_lt hi)] at hc
  have hall := natDigits_all_digit i.toNat
  rw [List.all_eq_true] at hall
  exact hall c hc

/-- No character of a well-formed `Star` rendering is a dot. -/
theorem render_no_dot (s : Star) (h : s.wfb = true) : ('.' : Char) ∉ Star.render s := by
  obtain ⟨mn, mx⟩ := s
  rw [Star.wfb, Bool.and_eq_true] at h
  obtain ⟨h1, h2⟩ := h
  have e1 : ¬ ('.' : Char) = '*' := by decide
  have e2 : ¬ ('.' : Char) = lbrace := by decide
  have e3 : ¬ ('.' : Char) = rbrace := by decide
  have e4 : ¬ ('.' : Char) = ',' := by decide
  have hdig : ∀ i : Int, 0 < i → ('.' : Char) ∈ intDigits i → False := by
    intro i hi hm
    exact absurd (mem_intDigits_digit hi hm) (by decide)
  cases mn <;> cases mx
  · simp [render_none_none, e1]
  · next m =>
    have hm : 0 < m := by simpa [posBound] using h2
    rw [render_max_only]
    intro hmem
    simp only [List.mem_cons, List.mem_append, List.mem_singleton] at hmem
    have hb := hdig m hm
    tauto
  · next n =>
    have hn : 0 < n := by simpa [posBound] using h1
    rw [render_min_only]
    intro hmem
    simp only [List.mem_cons, List.mem_append, List.mem_singleton] at hmem
    have hb := hdig n hn
    tauto
  · next n m =>
    have hn : 0 < n := by simpa [posBound] using h1
    have hm : 0 < m := by simpa [posBound] using h2
    by_cases hnm : n = m
    · subst hnm
      rw [render_exact]
      intro hmem
      simp only [List.mem_cons, List.mem_append, List.mem_singleton] at hmem
      have hb := hdig n hn
      tauto
    · rw [render_range n m hnm]
      intro hmem
      simp only [List.mem_cons, List.mem_append, List.mem_singleton] at hmem
      have hb := hdig n hn
      have hb2 := hdig m hm
      tauto

/-! ### Fusion pass lemmas -/

theorem getLast?_mem {α : Type} {l : List α} {a : α} (h : l.getLast? = some a) : a ∈ l := by
  obtain ⟨hne, e⟩ := List.mem_getLast?_eq_getLast (Option.mem_def.mpr h)
  subst e
  exact List.getLast_mem hne

theorem notBothStar_iff (a b : QueryLabel) :
    notBothStar a b ↔ (!(isStar a && isStar b)) = true := by
  cases ha : isStar a <;> cases hb : isStar b <;> simp [notBothStar, ha, hb]

theorem noAdjStars_iff_chain (l : List QueryLabel) :
    noAdjStars l = true ↔ List.Chain' notBothStar l := by
  induction l with
  | nil => simp [noAdjStars]
  | cons a rest ih =>
    cases rest with
    | nil => simp [noAdjStars]
    | cons b rest2 =>
      rw [noAdjStars, Bool.and_eq_true, List.chain'_cons, ih, notBothStar_iff]

theorem chain'_concat_iff {α : Type} {R : α → α → Prop} {ys : List α} {u : α} :
    List.Chain' R (ys ++ [u]) ↔ List.Chain' R ys ∧ ∀ z ∈ ys.getLast?, R z u := by
  rw [List.chain'_append]
  simp

/-- The fusion step preserves the adjacency invariant: merging into
the last slot replaces a trailing wildcard by a wildcard, and plain
appends are guarded by the not-both-wildcards test. -/
theorem pushLabel_chain {rv : List QueryLabel} {x : QueryLabel}
    (h : List.Chain' notBothStar rv) : List.Chain' notBothStar (pushLabel rv x) := by
  unfold pushLabel
  cases hlast : rv.getLast? with
  | none => simp
  | some last =>
    have hrv : rv.dropLast ++ [last] = rv :=
      List.dropLast_append_getLast? last (Option.mem_def.mpr hlast)
    cases last with
    | star a =>
      cases x with
      | star b =>
        rw [chain'_concat_iff]
        have h' : List.Chain' notBothStar (rv.dropLast ++ [QueryLabel.star a]) := by
          rw [hrv]; exact h
        rw [chain'_concat_iff] at h'
        refine ⟨h'.1, fun z hz => ?_⟩
        have hb := h'.2 z hz
        simp only [notBothStar, isStar] at hb ⊢
        exact hb
      | label s =>
        rw [chain'_concat_iff]
        exact ⟨h, fun z hz => by simp [notBothStar, isStar]⟩
    | label s =>
      cases x <;>
        · rw [chain'_concat_iff]
          refine ⟨h, fun z hz => ?_⟩
          rw [Option.mem_def, hlast] at hz
          injection hz with hz
          subst hz
          simp [notBothStar, isStar]

theorem foldl_merge_chain (cands : List (Option QueryLabel)) :
    ∀ acc : List QueryLabel, List.Chain' notBothStar acc →
      List.Chain' notBothStar (cands.foldl mergeStep acc) := by
  induction cands with
  | nil => intro acc h; exact h
  | cons i rest ih =>
    intro acc h
    cases i with
    | none => exact ih acc h
    | some x => exact ih _ (pushLabel_chain h)

/-- The output of the fusion pass never contains two adjacent
wildcards, whatever the candidate list was. -/
theorem mergeLabels_chain (cands : List (Option QueryLabel)) :
    List.Chain' notBothStar (mergeLabels cands) :=
  foldl_merge_chain cands [] List.chain'_nil

theorem pushLabel_nil (x : QueryLabel) : pushLabel [] x = [x] := rfl

theorem pushLabel_append {rv : List QueryLabel} {x : QueryLabel} (hrv : rv ≠ [])
    (hok : ∀ last, rv.getLast? = some last → notBothStar last x) :
    pushLabel rv x = rv ++ [x] := by
  unfold pushLabel
  cases hlast : rv.getLast? with
  | none => exact absurd (List.getLast?_eq_none_iff.mp hlast) hrv
  | some last =>
    have hn := hok last hlast
    cases last with
    | star a =>
      cases x with
      | star b => exact absurd ⟨rfl, rfl⟩ hn
      | label s => rfl
    | label s => cases x <;> rfl

theorem foldl_merge_id :
    ∀ (l acc : List QueryLabel), List.Chain' notBothStar (acc ++ l) →
      (l.map some).foldl mergeStep acc = acc ++ l := by
  intro l
  induction l with
  | nil => intro acc _; simp
  | cons x rest ih =>
    intro acc h
    have hpush : pushLabel acc x = acc ++ [x] := by
      cases acc with
      | nil => rfl
      | cons a as =>
        refine pushLabel_append (by simp) ?_
        intro last hlast
        have h' := (List.chain'_append.mp h).2.2
        exact h' last (Option.mem_def.mpr hlast) x (Option.mem_def.mpr rfl)
    show (rest.map some).foldl mergeStep (pushLabel acc x) = acc ++ x :: rest
    rw [hpush]
    have hassoc : acc ++ x :: rest = (acc ++ [x]) ++ rest := by simp
    rw [hassoc] at h ⊢
    exact ih (acc ++ [x]) h

/-- The fusion pass is the identity on a list already satisfying the
invariant (no elisions, no adjacent wildcards). -/
theorem mergeLabels_id (l : List QueryLabel) (h : noAdjStars l = true) :
    mergeLabels (l.map some) = l := by
  rw [noAdjStars_iff_chain] at h
  exact foldl_merge_id l [] (by simpa using h)

/-! ### Well-formedness of constructed values -/

theorem not_mem_of_all_false {p : Char → Bool} {l : List Char} {c : Char}
    (hall : l.all p = true) (hc : p c = false) : c ∉ l := by
  intro hmem
  rw [List.all_eq_true] at hall
  have := hall c hmem
  rw [hc] at this
  exact Bool.noConfusion this

theorem starBound_wf {o : Option Int} (h : ∀ i ∈ o, 0 ≤ i) : posBound (starBound o) = true := by
  cases o with
  | none => rfl
  | some i =>
    simp only [starBound]
    by_cases hi : i = 0
    · rw [if_pos hi]; rfl
    · rw [if_neg hi]
      have hnn := h i (Option.mem_def.mpr rfl)
      simp only [posBound, decide_eq_true_eq]
      omega

theorem Star.new_wf {a b : Option Int} (ha : ∀ i ∈ a, 0 ≤ i) (hb : ∀ i ∈ b, 0 ≤ i) :
    (Star.new a b).wfb = true := by
  rw [Star.new, Star.wfb, Bool.and_eq_true]
  exact ⟨starBound_wf ha, starBound_wf hb⟩

theorem parseComma_wf {ls : List (List Char)} {st : Star}
    (h : parseComma ls = some st) : st.wfb = true := by
  unfold parseComma at h
  split at h
  · split at h
    · injection h with h
      subst h
      refine Star.new_wf ?_ ?_ <;>
        · split
          · intro i hi; cases hi
          · intro i hi
            rw [Option.mem_def] at hi
            injection hi with hi
            subst hi
            exact Int.natCast_nonneg _
    · exact Option.noConfusion h
  · exact Option.noConfusion h

theorem Star.parse_wf {l : List Char} {st : Star} (h : Star.parse l = some st) :
    st.wfb = true := by
  unfold Star.parse at h
  split at h
  · injection h with h
    subst h
    exact Star.new_wf (by intro i hi; cases hi) (by intro i hi; cases hi)
  · split at h
    · next c0 c1 rest =>
      unfold parseBody at h
      split at h
      · split at h
        · injection h with h
          subst h
          refine Star.new_wf ?_ ?_ <;>
            · intro i hi
              rw [Option.mem_def] at hi
              injection hi with hi
              subst hi
              exact Int.natCast_nonneg _
        · exact parseComma_wf h
      · exact Option.noConfusion h
    · exact Option.noConfusion h

theorem posBound_getD {o : Option Int} (h : posBound o = true) : 0 ≤ o.getD 0 := by
  cases o with
  | none => simp
  | some i =>
    simp only [posBound, decide_eq_true_eq] at h
    simp only [Option.getD_some]
    omega

theorem Star.merge_wf {a b : Star} (ha : a.wfb = true) (hb : b.wfb = true) :
    (a.merge b).wfb = true := by
  rw [Star.wfb, Bool.and_eq_true] at ha hb
  have hmin : 0 ≤ a.min.getD 0 + b.min.getD 0 := by
    have h1 := posBound_getD ha.1
    have h2 := posBound_getD hb.1
    omega
  apply Star.new_wf
  · split
    · intro i hi; cases hi
    · intro i hi
      rw [Option.mem_def] at hi
      injection hi with hi
      subst hi
      exact hmin
  · intro i hi
    rcases hamax : a.max with _ | av
    · rw [hamax] at hi
      simp at hi
    · rcases hbmax : b.max with _ | bv
      · rw [hamax, hbmax] at hi
        simp at hi
      · rw [hamax, hbmax] at hi
        simp only [Option.mem_def] at hi
        have hi2 : some (av + bv) = some i := hi
        injection hi2 with hi2
        subst hi2
        have hx := ha.2
        have hy := hb.2
        rw [hamax] at hx
        rw [hbmax] at hy
        simp only [posBound, decide_eq_true_eq] at hx hy
        omega

/-! ### `exceptMapM` plumbing -/

theorem exceptMapM_ok_forall {α β : Type} {f : α → Except String β} :
    ∀ {l : List α} {out : List β}, exceptMapM f l = .ok out →
      ∀ b ∈ out, ∃ a ∈ l, f a = .ok b := by
  intro l
  induction l with
  | nil =>
    intro out h b hb
    rw [exceptMapM] at h
    injection h with h
    subst h
    cases hb
  | cons x xs ih =>
    intro out h b hb
    rw [exceptMapM] at h
    split at h
    · exact Except.noConfusion h
    · next y hfx =>
      split at h
      · exact Except.noConfusion h
      · next ys hrest =>
        injection h with h
        subst h
        rcases List.mem_cons.mp hb with hb | hb
        · subst hb
          exact ⟨x, List.mem_cons_self _ _, hfx⟩
        · obtain ⟨a, hal, hfa⟩ := ih hrest b hb
          exact ⟨a, List.mem_cons_of_mem _ hal, hfa⟩

theorem exceptMapM_ok_of_all {α β : Type} {f : α → Except String β} {g : α → β} :
    ∀ {l : List α}, (∀ a ∈ l, f a = .ok (g a)) → exceptMapM f l = .ok (l.map g) := by
  intro l
  induction l with
  | nil => intro _; rfl
  | cons x xs ih =>
    intro h
    rw [exceptMapM, h x (List.mem_cons_self _ _),
      ih (fun a ha => h a (List.mem_cons_of_mem _ ha))]
    rfl

/-! ### Label validator lemmas -/

theorem ltreeLabel_ok_some {l : List Char} (h1 : l ≠ []) (h2 : l.all isWordChar = true) :
    ltreeLabel l = .ok (some l) := by
  unfold ltreeLabel
  rw [if_neg h1, if_pos h2]

theorem ltreeLabel_wf {s : List Char} {o : Option Label} (h : ltreeLabel s = .ok o) :
    ∀ l, o = some l → l ≠ [] ∧ l.all isWordChar = true := by
  unfold ltreeLabel at h
  split at h
  · next he =>
    injection h with h
    subst h
    intro l hl
    cases hl
  · split at h
    · next hall =>
      injection h with h
      subst h
      intro l hl
      injection hl with hl
      subst hl
      next he => exact ⟨he, hall⟩
    · exact Except.noConfusion h

theorem lqueryLabel_ok_label {s : List Char} (h1 : s ≠ []) (h2 : s.all isQWordChar = true) :
    lqueryLabel s = .ok (some (.label s)) := by
  unfold lqueryLabel
  rw [if_neg h1, if_pos h2]

theorem lqueryLabel_ok_star {st : Star} (h : st.wfb = true) :
    lqueryLabel (Star.render st) = .ok (some (.star st)) := by
  unfold lqueryLabel
  rw [if_neg (render_ne_nil st)]
  have hq : ¬ ((Star.render st).all isQWordChar = true) := by
    rw [render_not_all_qword st]
    exact Bool.false_ne_true
  rw [if_neg hq, Star.parse_render st h]

theorem lqueryLabel_wf {s : List Char} {o : Option QueryLabel} (h : lqueryLabel s = .ok o) :
    ∀ x, o = some x → x.wfb = true := by
  unfold lqueryLabel at h
  split at h
  · injection h with h
    subst h
    intro x hx
    cases hx
  · split at h
    · next hne hall =>
      injection h with h
      subst h
      intro x hx
      injection hx with hx
      subst hx
      rw [QueryLabel.wfb, Bool.and_eq_true]
      refine ⟨?_, hall⟩
      simp [List.isEmpty_iff, hne]
    · split at h
      · next st hp =>
        injection h with h
        subst h
        intro x hx
        injection hx with hx
        subst hx
        exact Star.parse_wf hp
      · exact Except.noConfusion h

/-! ### Fusion preserves element well-formedness -/

theorem pushLabel_wf {rv : List QueryLabel} {x : QueryLabel}
    (hrv : rv.all QueryLabel.wfb = true) (hx : x.wfb = true) :
    (pushLabel rv x).all QueryLabel.wfb = true := by
  unfold pushLabel
  cases hlast : rv.getLast? with
  | none => simp [hx]
  | some last =>
    have hlastwf : last.wfb = true := by
      rw [List.all_eq_true] at hrv
      exact hrv last (getLast?_mem hlast)
    cases last with
    | star a =>
      cases x with
      | star b =>
        rw [List.all_append]
        have hdrop : rv.dropLast.all QueryLabel.wfb = true := by
          rw [List.all_eq_true] at hrv ⊢
          exact fun y hy => hrv y ((List.dropLast_sublist rv).subset hy)
        have hm : (QueryLabel.star (a.merge b)).wfb = true := Star.merge_wf hlastwf hx
        simp [hdrop, hm]
      | label s =>
        rw [List.all_append]
        simp [hrv, hx]
    | label s =>
      cases x <;>
        · rw [List.all_append]
          simp [hrv, hx]

theorem foldl_merge_wf (cands : List (Option QueryLabel)) :
    (∀ x, some x ∈ cands → x.wfb = true) →
    ∀ acc : List QueryLabel, acc.all QueryLabel.wfb = true →
      ((cands.foldl mergeStep acc).all QueryLabel.wfb) = true := by
  induction cands with
  | nil => intro _ acc h; exact h
  | cons i rest ih =>
    intro hc acc hacc
    cases i with
    | none => exact ih (fun x hx => hc x (List.mem_cons_of_mem _ hx)) acc hacc
    | some x =>
      exact ih (fun y hy => hc y (List.mem_cons_of_mem _ hy)) _
        (pushLabel_wf hacc (hc x (List.mem_cons_self _ _)))

theorem mergeLabels_wf (cands : List (Option QueryLabel))
    (hc : ∀ x, some x ∈ cands → x.wfb = true) :
    (mergeLabels cands).all QueryLabel.wfb = true :=
  foldl_merge_wf cands hc [] rfl

/-! ### Constructor postconditions -/

theorem ltree_fromPieces_wf {ps : List (List Char)} {t : Ltree}
    (h : Ltree.fromPieces ps = .ok t) : Ltree.wfb t = true := by
  unfold Ltree.fromPieces at h
  split at h
  · exact Except.noConfusion h
  · next opts hm =>
    injection h with h
    subst h
    rw [Ltree.wfb, List.all_eq_true]
    intro l hl
    rw [List.mem_filterMap] at hl
    obtain ⟨o, ho, hoeq⟩ := hl
    obtain ⟨p, _, hfp⟩ := exceptMapM_ok_forall hm o ho
    obtain ⟨hne, hall⟩ := ltreeLabel_wf hfp l (by simpa using hoeq)
    rw [Bool.and_eq_true]
    constructor
    · simp [List.isEmpty_iff, hne]
    · exact hall

theorem lquery_fromPieces_wf {ps : List (List Char)} {q : Lquery}
    (h : Lquery.fromPieces ps = .ok q) :
    Lquery.wfb q = true ∧ noAdjStars q = true := by
  unfold Lquery.fromPieces at h
  split at h
  · exact Except.noConfusion h
  · next opts hm =>
    injection h with h
    subst h
    constructor
    · apply mergeLabels_wf
      intro x hx
      obtain ⟨p, _, hfp⟩ := exceptMapM_ok_forall hm (some x) hx
      exact lqueryLabel_wf hfp x rfl
    · rw [noAdjStars_iff_chain]
      exact mergeLabels_chain opts

theorem lquery_add_wf {a b q : Lquery} (h : Lquery.add a b = .ok q) :
    Lquery.wfb q = true ∧ noAdjStars q = true := by
  unfold Lquery.add at h
  split at h
  · exact Except.noConfusion h
  · next la hma =>
    split at h
    · exact Except.noConfusion h
    · next lb hmb =>
      injection h with h
      subst h
      constructor
      · apply mergeLabels_wf
        intro x hx
        rcases List.mem_append.mp hx with hx | hx
        · obtain ⟨p, _, hfp⟩ := exceptMapM_ok_forall hma (some x) hx
          cases p with
          | label s => exact lqueryLabel_wf hfp x rfl
          | star st => exact lqueryLabel_wf hfp x rfl
        · obtain ⟨p, _, hfp⟩ := exceptMapM_ok_forall hmb (some x) hx
          cases p with
          | label s => exact lqueryLabel_wf hfp x rfl
          | star st => exact lqueryLabel_wf hfp x rfl
      · rw [noAdjStars_iff_chain]
        exact mergeLabels_chain (la ++ lb)

/-! ### Codec round trips -/

theorem ltree_no_dot {t : Ltree} (h : Ltree.wfb t = true) : ∀ r ∈ t, ('.' : Char) ∉ r := by
  intro r hr
  rw [Ltree.wfb, List.all_eq_true] at h
  have hw := h r hr
  rw [Bool.and_eq_true] at hw
  exact not_mem_of_all_false hw.2 (by decide)

theorem mapM_ltree_self {t : Ltree} (h : Ltree.wfb t = true) :
    exceptMapM ltreeLabel t = .ok (t.map some) := by
  apply exceptMapM_ok_of_all
  intro l hl
  rw [Ltree.wfb, List.all_eq_true] at h
  have hw := h l hl
  rw [Bool.and_eq_true] at hw
  refine ltreeLabel_ok_some ?_ hw.2
  have := hw.1
  simpa [List.isEmpty_iff] using this

/-- Rendering then re-parsing recovers any well-formed `Ltree`: the
`decode(encode(v)) == v` law on the tree-path side. -/
theorem ltree_roundtrip {t : Ltree} (h : Ltree.wfb t = true) :
    Ltree.fromString (Ltree.toText t) = .ok t := by
  cases htne : t with
  | nil => rfl
  | cons l rest =>
    rw [← htne]
    unfold Ltree.fromString Ltree.toText
    rw [splitOnChar_joinSep t (by rw [htne]; simp) (ltree_no_dot h)]
    unfold Ltree.fromPieces
    rw [mapM_ltree_self h]
    simp

theorem lquery_render_no_dot {q : Lquery} (h : Lquery.wfb q = true) :
    ∀ r ∈ q.map QueryLabel.render, ('.' : Char) ∉ r := by
  intro r hr
  rw [List.mem_map] at hr
  obtain ⟨x, hx, hxr⟩ := hr
  rw [Lquery.wfb, List.all_eq_true] at h
  have hw := h x hx
  subst hxr
  cases x with
  | label s =>
    rw [QueryLabel.wfb, Bool.and_eq_true] at hw
    exact not_mem_of_all_false hw.2 (by decide)
  | star st => exact render_no_dot st hw

theorem mapM_lquery_render {q : Lquery} (h : Lquery.wfb q = true) :
    exceptMapM lqueryLabel (q.map QueryLabel.render) = .ok (q.map some) := by
  induction q with
  | nil => rfl
  | cons x rest ih =>
    rw [Lquery.wfb, List.all_cons, Bool.and_eq_true] at h
    have hfx : lqueryLabel x.render = .ok (some x) := by
      cases x with
      | label s =>
        have hw := h.1
        rw [QueryLabel.wfb, Bool.and_eq_true] at hw
        exact lqueryLabel_ok_label (by simpa [List.isEmpty_iff] using hw.1) hw.2
      | star st => exact lqueryLabel_ok_star h.1
    rw [List.map_cons, List.map_cons, exceptMapM, hfx, ih h.2]

/-- Rendering then re-parsing recovers any well-formed, fused
`Lquery`: the `decode(encode(v)) == v` law on the pattern side. -/
theorem lquery_roundtrip {q : Lquery} (h1 : Lquery.wfb q = true) (h2 : noAdjStars q = true) :
    Lquery.fromString (Lquery.toText q) = .ok q := by
  cases hqne : q with
  | nil => rfl
  | cons x rest =>
    rw [← hqne]
    unfold Lquery.fromString Lquery.toText
    rw [splitOnChar_joinSep (q.map QueryLabel.render) (by rw [hqne]; simp)
      (lquery_render_no_dot h1)]
    unfold Lquery.fromPieces
    rw [mapM_lquery_render h1]
    show Except.ok (mergeLabels (q.map some)) = Except.ok q
    rw [mergeLabels_id q h2]

/-! ### Lexicographic comparison lemmas -/

theorem lex_irrefl {α : Type} {R : α → α → Prop} (hirr : ∀ a, ¬ R a a) :
    ∀ l : List α, ¬ List.Lex R l l := by
  intro l
  induction l with
  | nil => intro h; cases h
  | cons a as ih =>
    intro h
    cases h with
    | cons h2 => exact ih h2
    | rel hr => exact hirr a hr

/-- Python's tuple comparison (equality first at each slot, then `<`
at the first difference, shorter prefix smaller) computes exactly the
lexicographic strict order, for any irreflexive elementwise order. -/
theorem pyTupleLtB_iff {α : Type} [DecidableEq α] {ltb : α → α → Bool} {R : α → α → Prop}
    (hlt : ∀ a b, ltb a b = true ↔ R a b) (hirr : ∀ a, ¬ R a a) :
    ∀ l₁ l₂, pyTupleLtB ltb l₁ l₂ = true ↔ List.Lex R l₁ l₂ := by
  intro l₁
  induction l₁ with
  | nil =>
    intro l₂
    cases l₂ with
    | nil =>
      constructor
      · intro h; exact Bool.noConfusion h
      · intro h; cases h
    | cons b bs => exact ⟨fun _ => List.Lex.nil, fun _ => rfl⟩
  | cons a as ih =>
    intro l₂
    cases l₂ with
    | nil =>
      constructor
      · intro h; exact Bool.noConfusion h
      · intro h; cases h
    | cons b bs =>
      rw [pyTupleLtB]
      by_cases hab : a = b
      · subst hab
        rw [if_pos rfl, ih bs]
        constructor
        · exact List.Lex.cons
        · intro h
          cases h with
          | cons h2 => exact h2
          | rel hr => exact absurd hr (hirr a)
      · rw [if_neg hab, hlt a b]
        constructor
        · exact List.Lex.rel
        · intro h
          cases h with
          | cons h2 => exact absurd rfl hab
          | rel hr => exact hr

theorem pyStrLt_iff (x y : List Char) :
    pyStrLt x y = true ↔ List.Lex (· < ·) x y :=
  pyTupleLtB_iff (fun _ _ => decide_eq_true_iff) (fun c => lt_irrefl c) x y

/-- `Ltree.__lt__` between two `Ltree` values is lexicographic tuple
ordering over the labels, each label pair ordered lexicographically by
code point. -/
theorem ltreeLt_iff (a b : Ltree) :
    Ltree.lt a b = true ↔ List.Lex (fun x y : Label => List.Lex (· < ·) x y) a b :=
  pyTupleLtB_iff (fun x y => pyStrLt_iff x y)
    (fun l => lex_irrefl (fun c => lt_irrefl c) l) a b

theorem qlabelLex_irrefl (x : QueryLabel) : ¬ qlabelLex x x := by
  cases x with
  | label s => exact lex_irrefl (fun c => lt_irrefl c) s
  | star st => exact fun h => h

/-- On wildcard-free patterns, the inherited tuple comparison of
`Lquery` succeeds and is the lexicographic order on the labels. -/
theorem lqueryLt_labels : ∀ {a b : Lquery}, labelOnly a = true → labelOnly b = true →
    ((Lquery.lt a b = .ok true) ↔ List.Lex qlabelLex a b) := by
  intro a
  induction a with
  | nil =>
    intro b _ _
    cases b with
    | nil =>
      constructor
      · intro h
        injection h with h
        exact Bool.noConfusion h
      · intro h; cases h
    | cons y bs => exact ⟨fun _ => List.Lex.nil, fun _ => rfl⟩
  | cons x as ih =>
    intro b ha hb
    cases b with
    | nil =>
      constructor
      · intro h
        injection h with h
        exact Bool.noConfusion h
      · intro h; cases h
    | cons y bs =>
      rw [labelOnly, List.all_cons, Bool.and_eq_true] at ha hb
      cases x with
      | star st => simp [isStar] at ha
      | label s =>
        cases y with
        | star st => simp [isStar] at hb
        | label t =>
          show (pyTupleLtE qlabelLtPy _ _ = .ok true) ↔ _
          rw [pyTupleLtE]
          by_cases hxy : (QueryLabel.label s) = (QueryLabel.label t)
          · rw [if_pos hxy]
            injection hxy with hst
            subst hst
            rw [show pyTupleLtE qlabelLtPy as bs = Lquery.lt as bs from rfl, ih ha.2 hb.2]
            constructor
            · exact List.Lex.cons
            · intro h
              cases h with
              | cons h2 => exact h2
              | rel hr => exact absurd hr (qlabelLex_irrefl _)
          · rw [if_neg hxy]
            show (Except.ok (pyStrLt s t) = Except.ok true) ↔ _
            constructor
            · intro h
              injection h with h
              exact List.Lex.rel ((pyStrLt_iff s t).mp h)
            · intro h
              cases h with
              | cons h2 => exact absurd rfl hxy
              | rel hr =>
                have : pyStrLt s t = true := (pyStrLt_iff s t).mpr hr
                rw [this]

/-! ### Indexing and slicing lemmas -/

theorem pyIndex_of_nonneg (n : Nat) (i : Int) (h : ¬ i < 0) : pyIndex n i = i := by
  unfold pyIndex
  rw [if_neg h]

theorem pyIndex_of_neg (n : Nat) (i : Int) (h : i < 0) : pyIndex n i = i + n := by
  unfold pyIndex
  rw [if_pos h]

theorem getItemPy_ok_iff (t : Ltree) (i : Int) :
    (∃ l, Ltree.getItemPy t i = .ok l) ↔ (-(t.length : Int) ≤ i ∧ i < (t.length : Int)) := by
  unfold Ltree.getItemPy
  by_cases hi : i < 0
  · rw [pyIndex_of_neg _ _ hi]
    by_cases hj : 0 ≤ i + (t.length : Int) ∧ i + (t.length : Int) < (t.length : Int)
    · rw [if_pos hj]
      exact ⟨fun _ => by omega, fun _ => ⟨_, rfl⟩⟩
    · rw [if_neg hj]
      constructor
      · rintro ⟨l, hl⟩
        exact Except.noConfusion hl
      · intro hbd
        exact absurd ⟨by omega, by omega⟩ hj
  · rw [pyIndex_of_nonneg _ _ hi]
    by_cases hj : 0 ≤ i ∧ i < (t.length : Int)
    · rw [if_pos hj]
      exact ⟨fun _ => by omega, fun _ => ⟨_, rfl⟩⟩
    · rw [if_neg hj]
      constructor
      · rintro ⟨l, hl⟩
        exact Except.noConfusion hl
      · intro hbd
        exact absurd ⟨by omega, by omega⟩ hj

theorem getItemPy_nonneg (t : Ltree) (i : Nat) (h : i < t.length) :
    Ltree.getItemPy t i = .ok (t.getD i []) := by
  unfold Ltree.getItemPy
  rw [pyIndex_of_nonneg _ _ (by omega), if_pos ⟨by omega, by omega⟩]
  simp

theorem getItemPy_neg (t : Ltree) (i : Int) (h1 : i < 0) (h2 : -(t.length : Int) ≤ i) :
    Ltree.getItemPy t i = .ok (t.getD (i + t.length).toNat []) := by
  unfold Ltree.getItemPy
  rw [pyIndex_of_neg _ _ h1, if_pos ⟨by omega, by omega⟩]

theorem fromLabels_self {t : Ltree} (h : Ltree.wfb t = true) : Ltree.fromLabels t = .ok t := by
  unfold Ltree.fromLabels
  rw [mapM_ltree_self h]
  show Except.ok ((t.map some).filterMap id) = Except.ok t
  simp

theorem pySlice_wf {t : Ltree} (h : Ltree.wfb t = true) (a b : Option Int) :
    Ltree.wfb (pySlice t a b) = true := by
  rw [Ltree.wfb, List.all_eq_true] at h ⊢
  intro l hl
  exact h l (List.mem_of_mem_drop (List.mem_of_mem_take hl))

/-- Slicing re-runs the constructor on the extracted labels, which
succeeds on any well-formed tree: slicing never raises. -/
theorem slicePy_ok {t : Ltree} (h : Ltree.wfb t = true) (a b : Option Int) :
    Ltree.slicePy t a b = .ok (pySlice t a b) :=
  fromLabels_self (pySlice_wf h a b)

/-! ### Merge arithmetic -/

theorem posBound_some_pos {i : Int} (h : posBound (some i) = true) : 0 < i := by
  simpa [posBound] using h

theorem merge_min_spec {a b : Star} (ha : a.wfb = true) (hb : b.wfb = true) :
    (a.merge b).min = mergeSpecMin a.min b.min := by
  rw [Star.wfb, Bool.and_eq_true] at ha hb
  obtain ⟨ha1, _⟩ := ha
  obtain ⟨hb1, _⟩ := hb
  show starBound (if a.min.getD 0 + b.min.getD 0 = 0 then none else some (a.min.getD 0 + b.min.getD 0))
      = mergeSpecMin a.min b.min
  rcases hma : a.min with _ | u <;> rcases hmb : b.min with _ | v
  · rfl
  · rw [hmb] at hb1
    have hv := posBound_some_pos hb1
    simp only [Option.getD_none, Option.getD_some]
    rw [if_neg (by omega : ¬ ((0:Int) + v = 0))]
    simp only [starBound]
    rw [if_neg (by omega : ¬ ((0:Int) + v = 0))]
    rfl
  · rw [hma] at ha1
    have hu := posBound_some_pos ha1
    simp only [Option.getD_none, Option.getD_some]
    rw [if_neg (by omega : ¬ (u + (0:Int) = 0))]
    simp only [starBound]
    rw [if_neg (by omega : ¬ (u + (0:Int) = 0))]
    rfl
  · rw [hma] at ha1
    rw [hmb] at hb1
    have hu := posBound_some_pos ha1
    have hv := posBound_some_pos hb1
    simp only [Option.getD_some]
    rw [if_neg (by omega : ¬ (u + v = 0))]
    simp only [starBound]
    rw [if_neg (by omega : ¬ (u + v = 0))]
    rfl

theorem merge_max_spec {a b : Star} (ha : a.wfb = true) (hb : b.wfb = true) :
    (a.merge b).max = mergeSpecMax a.max b.max := by
  rw [Star.wfb, Bool.and_eq_true] at ha hb
  obtain ⟨_, ha2⟩ := ha
  obtain ⟨_, hb2⟩ := hb
  show starBound (match a.max, b.max with
      | some x, some y => some (x + y)
      | _, _ => none) = mergeSpecMax a.max b.max
  rcases hma : a.max with _ | u <;> rcases hmb : b.max with _ | v
  · rfl
  · rfl
  · rfl
  · rw [hma] at ha2
    rw [hmb] at hb2
    have hu := posBound_some_pos ha2
    have hv := posBound_some_pos hb2
    show starBound (some (u + v)) = some (u + v)
    simp only [starBound]
    rw [if_neg (by omega : ¬ (u + v = 0))]

theorem starBound_ne_zero (o : Option Int) : starBound o ≠ some 0 := by
  cases o with
  | none => simp [starBound]
  | some i =>
    simp only [starBound]
    split
    · simp
    · next h => simp [h]

theorem wf_ne_zero {s : Star} (h : s.wfb = true) : s.min ≠ some 0 ∧ s.max ≠ some 0 := by
  rw [Star.wfb, Bool.and_eq_true] at h
  obtain ⟨h1, h2⟩ := h
  constructor
  · intro he
    rw [he] at h1
    have := posBound_some_pos h1
    omega
  · intro he
    rw [he] at h2
    have := posBound_some_pos h2
    omega

end Lemmas

section Claims

/-- C1: every `Lquery` produced by construction (`Lquery.__new__`, via
`_merge_labels`) or by concatenation (`__add__`/`__radd__`, which
re-run `_merge_labels` across the join boundary) has no two adjacent
wildcard elements: whenever a wildcard candidate is appended and the
last stored element is a wildcard, the last element is replaced by
their merge. -/
theorem C1_fusion_invariant :
    (∀ cands : List (Option QueryLabel), noAdjStars (mergeLabels cands) = true) ∧
    (∀ (s : List Char) (q : Lquery), Lquery.fromString s = .ok q → noAdjStars q = true) ∧
    (∀ a b q : Lquery, Lquery.add a b = .ok q → noAdjStars q = true) := by
  refine ⟨?_, ?_, ?_⟩
  · intro cands
    rw [noAdjStars_iff_chain]
    exact mergeLabels_chain cands
  · intro s q h
    exact (lquery_fromPieces_wf h).2
  · intro a b q h
    exact (lquery_add_wf h).2

/-- Witness for C1: constructing from the text `f.*.*` fuses the two
adjacent unbounded wildcards into one. -/
theorem C1_witness :
    noAdjStars [QueryLabel.label ['f'], QueryLabel.star ⟨none, none⟩] = true :=
  C1_fusion_invariant.2.1 ['f', '.', '*', '.', '*'] _ rfl

/-- C2: merging two well-formed wildcard terms sums the mins (`none`
when both absent) and sums the maxes when both present, `none` when
either side is unbounded above; in particular `*\x7b1\x7d` with
`*\x7b1\x7d` gives `*\x7b2\x7d` and `*\x7b1,2\x7d` with `*\x7b3,\x7d`
gives `*\x7b4,\x7d`. -/
theorem C2_merge_arithmetic (a b : Star) (ha : a.wfb = true) (hb : b.wfb = true) :
    ((a.merge b).min = mergeSpecMin a.min b.min ∧ (a.merge b).max = mergeSpecMax a.max b.max)
    ∧ (Star.new (some 1) (some 1)).merge (Star.new (some 1) (some 1)) = Star.new (some 2) (some 2)
    ∧ (Star.new (some 1) (some 2)).merge (Star.new (some 3) none) = Star.new (some 4) none :=
  ⟨⟨merge_min_spec ha hb, merge_max_spec ha hb⟩, by decide, by decide⟩

/-- Witness for C2 at `*\x7b1\x7d` merged with itself. -/
theorem C2_witness :
    ((Star.new (some 1) (some 1)).merge (Star.new (some 1) (some 1))).min
      = mergeSpecMin (Star.new (some 1) (some 1)).min (Star.new (some 1) (some 1)).min :=
  (C2_merge_arithmetic _ _ (by decide) (by decide)).1.1

/-- C3: encoding a constructed value to its dot-joined rendering and
decoding that text back through the constructor returns an equal
value, for both value types; the accompanying conjuncts show every
constructor output (from pieces, or concatenation) satisfies the
well-formedness and fusion invariants the round trip needs, so the law
covers every constructed value. -/
theorem C3_codec_roundtrip :
    (∀ t : Ltree, Ltree.wfb t = true → LtreeLoader.load (BaseLtreeDumper.dump t) = .ok t) ∧
    (∀ q : Lquery, Lquery.wfb q = true → noAdjStars q = true →
      Lquery.fromString (Lquery.toText q) = .ok q) ∧
    (∀ (ps : List (List Char)) (t : Ltree), Ltree.fromPieces ps = .ok t → Ltree.wfb t = true) ∧
    (∀ (ps : List (List Char)) (q : Lquery), Lquery.fromPieces ps = .ok q →
      Lquery.wfb q = true ∧ noAdjStars q = true) ∧
    (∀ a b q : Lquery, Lquery.add a b = .ok q →
      Lquery.wfb q = true ∧ noAdjStars q = true) := by
  refine ⟨?_, ?_, ?_, ?_, ?_⟩
  · intro t h
    exact ltree_roundtrip h
  · intro q h1 h2
    exact lquery_roundtrip h1 h2
  · intro ps t h
    exact ltree_fromPieces_wf h
  · intro ps q h
    exact lquery_fromPieces_wf h
  · intro a b q h
    exact lquery_add_wf h

/-- Witness for C3 on the tree path `a.b`. -/
theorem C3_witness :
    LtreeLoader.load (BaseLtreeDumper.dump [['a'], ['b']]) = .ok [['a'], ['b']] :=
  C3_codec_roundtrip.1 [['a'], ['b']] (by decide)

/-- C4: the rendering cascade of `Star.__str__` never reaches the
`assert False` fall-through, and rendering inverts parsing:
`Star.parse(str(s)) == s` for every well-formed wildcard term. -/
theorem C4_star_render (s : Star) (h : s.wfb = true) :
    (Star.strPy s).isSome = true ∧ Star.parse (Star.render s) = some s :=
  ⟨strPy_isSome s, Star.parse_render s h⟩

/-- Witness for C4 at the term `*\x7b2,\x7d`. -/
theorem C4_witness :
    (Star.strPy ⟨some 2, none⟩).isSome = true ∧
    Star.parse (Star.render ⟨some 2, none⟩) = some ⟨some 2, none⟩ :=
  C4_star_render ⟨some 2, none⟩ (by decide)

/-- C5: `Star.parse` maps the anchored forms `*`, `*\x7bn\x7d`,
`*\x7bn,\x7d`, `*\x7b,m\x7d`, `*\x7bn,m\x7d` (positive bounds shown
generically, plus the spec's concrete samples) to the corresponding
bounds, and the malformed near-matches `*\x7b\x7d`, `*\x7b,,2\x7d`,
`*\x7b-9999\x7d`, `*\x7b,2,\x7d`, `*\x7b2,,\x7d` all yield "not a
wildcard" (`none`) rather than an error — the model returns an
`Option` and has no failing path at all. -/
theorem C5_star_parse :
    (Star.parse ['*'] = some ⟨none, none⟩) ∧
    (∀ n : Int, 0 < n →
      Star.parse ('*' :: lbrace :: (intDigits n ++ [rbrace])) = some ⟨some n, some n⟩) ∧
    (∀ n : Int, 0 < n →
      Star.parse ('*' :: lbrace :: (intDigits n ++ [',', rbrace])) = some ⟨some n, none⟩) ∧
    (∀ m : Int, 0 < m →
      Star.parse ('*' :: lbrace :: ',' :: (intDigits m ++ [rbrace])) = some ⟨none, some m⟩) ∧
    (∀ n m : Int, 0 < n → 0 < m →
      Star.parse ('*' :: lbrace :: (intDigits n ++ ',' :: intDigits m ++ [rbrace]))
        = some ⟨some n, some m⟩) ∧
    (Star.parse ['*', lbrace, '2', rbrace] = some ⟨some 2, some 2⟩) ∧
    (Star.parse ['*', lbrace, ',', '2', rbrace] = some ⟨none, some 2⟩) ∧
    (Star.parse ['*', lbrace, '2', ',', rbrace] = some ⟨some 2, none⟩) ∧
    (Star.parse ['*', lbrace, '2', ',', '4', rbrace] = some ⟨some 2, some 4⟩) ∧
    (Star.parse ['*', lbrace, rbrace] = none) ∧
    (Star.parse ['*', lbrace, ',', ',', '2', rbrace] = none) ∧
    (Star.parse ['*', lbrace, '-', '9', '9', '9', '9', rbrace] = none) ∧
    (Star.parse ['*', lbrace, ',', '2', ',', rbrace] = none) ∧
    (Star.parse ['*', lbrace, '2', ',', ',', rbrace] = none) := by
  refine ⟨by decide, parse_exact_int, parse_min_int, parse_max_int, parse_range_int,
    by decide, by decide, by decide, by decide, by decide, by decide, by decide,
    by decide, by decide⟩

/-- Witness for C5 at `*\x7b2\x7d`. -/
theorem C5_witness :
    Star.parse ('*' :: lbrace :: (intDigits 2 ++ [rbrace])) = some ⟨some 2, some 2⟩ :=
  C5_star_parse.2.1 2 (by decide)

/-- C6: a bound given as integer 0 is stored as `none` by the
constructor, by parsing, and by merging — no constructed `Star` ever
holds a zero bound, and `*\x7b0\x7d` parses identically to `*`. -/
theorem C6_zero_collapse :
    (∀ a b : Option Int, (Star.new a b).min ≠ some 0 ∧ (Star.new a b).max ≠ some 0) ∧
    (∀ (l : List Char) (st : Star), Star.parse l = some st →
      st.min ≠ some 0 ∧ st.max ≠ some 0) ∧
    (∀ s t : Star, (s.merge t).min ≠ some 0 ∧ (s.merge t).max ≠ some 0) ∧
    (Star.new (some 0) (some 0) = Star.new none none) ∧
    (Star.parse ['*', lbrace, '0', rbrace] = Star.parse ['*']) := by
  refine ⟨?_, ?_, ?_, by decide, by decide⟩
  · intro a b
    exact ⟨starBound_ne_zero a, starBound_ne_zero b⟩
  · intro l st h
    exact wf_ne_zero (Star.parse_wf h)
  · intro s t
    exact ⟨starBound_ne_zero _, starBound_ne_zero _⟩

/-- Witness for C6 on the parse of `*`. -/
theorem C6_witness : (⟨none, none⟩ : Star).min ≠ some 0 ∧ (⟨none, none⟩ : Star).max ≠ some 0 :=
  C6_zero_collapse.2.1 ['*'] ⟨none, none⟩ rfl

/-- Counterexample to C7 as stated: `Lquery` does not define `__lt__`,
so two patterns compare with the inherited tuple comparison, and
comparing the constructed values `Lquery('*')` and
`Lquery('*\x7b1\x7d')` — or a label against a wildcard — raises
`TypeError` (`.error ()`) instead of returning the truth value of a
lexicographic comparison. -/
theorem C7_counterexample :
    Lquery.fromString ['*'] = .ok [QueryLabel.star ⟨none, none⟩] ∧
    Lquery.fromString ['*', lbrace, '1', rbrace] = .ok [QueryLabel.star ⟨some 1, some 1⟩] ∧
    Lquery.lt [QueryLabel.star ⟨none, none⟩] [QueryLabel.star ⟨some 1, some 1⟩] = .error () ∧
    Lquery.lt [QueryLabel.label ['a']] [QueryLabel.star ⟨none, none⟩] = .error () := by
  refine ⟨rfl, rfl, rfl, rfl⟩

/-- C7 amended: `Ltree` ordering between two trees is pure
lexicographic tuple ordering over the labels; `Lquery` inherits
elementwise tuple comparison, which agrees with lexicographic ordering
on wildcard-free patterns but can raise `TypeError` when a wildcard is
involved (see the counterexample). -/
theorem C7_lexicographic :
    (∀ a b : Ltree,
      (Ltree.lt a b = true) ↔ List.Lex (fun x y : Label => List.Lex (· < ·) x y) a b) ∧
    (∀ a b : Lquery, labelOnly a = true → labelOnly b = true →
      ((Lquery.lt a b = .ok true) ↔ List.Lex qlabelLex a b)) :=
  ⟨ltreeLt_iff, fun _ _ ha hb => lqueryLt_labels ha hb⟩

/-- Witness for C7 (amended) on label-only patterns `a < ab`. -/
theorem C7_witness :
    Lquery.lt [QueryLabel.label ['a']] [QueryLabel.label ['a', 'b']] = .ok true :=
  (C7_lexicographic.2 [QueryLabel.label ['a']] [QueryLabel.label ['a', 'b']] rfl rfl).mpr
    (List.Lex.rel (List.Lex.cons List.Lex.nil))

/-- Counterexample to C8 as stated: with a string right-hand side,
`Ltree.__eq__` compares the rendering, not the coerced tree: the
string `a.` coerces to the same tree as `a` (the trailing empty label
elides), yet `Ltree('a') == 'a.'` is `False`. -/
theorem C8_counterexample :
    Ltree.eqPy [['a']] (.str ['a', '.']) = .ok false ∧
    Ltree.fromString ['a', '.'] = .ok [['a']] :=
  ⟨rfl, rfl⟩

/-- C8 amended: equality with another `Ltree` compares label tuples;
equality with a string compares the dot-joined rendering against the
string (no coercion), and only other right-hand operands are coerced
through the constructor; when the string comparison succeeds, the
coerced tree does equal the left operand. -/
theorem C8_string_equality :
    (∀ t u : Ltree, Ltree.eqPy t (.tree u) = .ok (t == u)) ∧
    (∀ (t : Ltree) (s : List Char), Ltree.eqPy t (.str s) = .ok (Ltree.toText t == s)) ∧
    (∀ (t : Ltree) (ls : List (List Char)),
      Ltree.eqPy t (.seq ls) = (match Ltree.fromLabels ls with
        | .error e => .error e
        | .ok u => .ok (t == u))) ∧
    (∀ t : Ltree, Ltree.wfb t = true → ∀ s : List Char,
      Ltree.eqPy t (.str s) = .ok true → Ltree.fromString s = .ok t) := by
  refine ⟨fun t u => rfl, fun t s => rfl, fun t ls => rfl, ?_⟩
  intro t hwf s h
  have h2 : Except.ok (ε := String) (Ltree.toText t == s) = .ok true := h
  injection h2 with h2
  have hs : Ltree.toText t = s := by
    exact beq_iff_eq.mp h2
  rw [← hs]
  exact ltree_roundtrip hwf

/-- Witness for C8 (amended): a rendering match implies the coercion
agrees, at `Ltree('a') == 'a'`. -/
theorem C8_witness : Ltree.fromString ['a'] = .ok [['a']] :=
  C8_string_equality.2.2.2 [['a']] (by decide) ['a'] rfl

/-- C9: integer indexing succeeds exactly on indexes in `[-n, n-1]`
(counting from the end when negative) and raises `IndexError`
otherwise, while slicing never raises on a well-formed tree — it
re-runs the constructor on the extracted labels — and an empty range
such as `[0:0]` yields an empty tree. -/
theorem C9_indexing :
    (∀ (t : Ltree) (i : Int),
      (∃ l, Ltree.getItemPy t i = .ok l) ↔ (-(t.length : Int) ≤ i ∧ i < (t.length : Int))) ∧
    (∀ (t : Ltree) (i : Nat), i < t.length → Ltree.getItemPy t i = .ok (t.getD i [])) ∧
    (∀ (t : Ltree) (i : Int), i < 0 → -(t.length : Int) ≤ i →
      Ltree.getItemPy t i = .ok (t.getD (i + t.length).toNat [])) ∧
    (∀ (t : Ltree) (i : Int), ¬ (-(t.length : Int) ≤ i ∧ i < (t.length : Int)) →
      Ltree.getItemPy t i = .error "IndexError") ∧
    (∀ t : Ltree, Ltree.wfb t = true → ∀ a b : Option Int,
      Ltree.slicePy t a b = .ok (pySlice t a b)) ∧
    (∀ t : Ltree, Ltree.wfb t = true → Ltree.slicePy t (some 0) (some 0) = .ok []) := by
  refine ⟨getItemPy_ok_iff, getItemPy_nonneg, getItemPy_neg, ?_,
    fun t h a b => slicePy_ok h a b, ?_⟩
  · intro t i h
    unfold Ltree.getItemPy
    by_cases hi : i < 0
    · rw [pyIndex_of_neg _ _ hi, if_neg (by omega)]
    · rw [pyIndex_of_nonneg _ _ hi, if_neg (by omega)]
  intro t h
  rw [slicePy_ok h (some 0) (some 0)]
  congr 1
  unfold pySlice pySliceStart pySliceStop pyClamp
  simp

/-- Witness for C9: index 1 of a two-label tree is in range, and the
empty slice of it is empty. -/
theorem C9_witness :
    (∃ l, Ltree.getItemPy [['a'], ['b']] 1 = .ok l) ∧
    Ltree.slicePy [['a'], ['b']] (some 0) (some 0) = .ok [] :=
  ⟨(C9_indexing.1 [['a'], ['b']] 1).mpr (by decide),
    C9_indexing.2.2.2.2.2 [['a'], ['b']] (by decide)⟩

/-- C10: `Ltree.__hash__` and `Lquery.__hash__` are `return
hash(self)`, an unconditional self-call: modelled with an explicit
recursion budget, evaluation exhausts any budget without ever
producing a value, so no `Ltree` or `Lquery` can be hashed. -/
theorem C10_hash_diverges :
    (∀ (t : Ltree) (fuel : Nat), Ltree.hashPy t fuel = none) ∧
    (∀ (q : Lquery) (fuel : Nat), Lquery.hashPy q fuel = none) := by
  constructor
  · intro t fuel
    induction fuel with
    | zero => rfl
    | succ n ih => exact ih
  · intro q fuel
    induction fuel with
    | zero => rfl
    | succ n ih => exact ih

end Claims

end PsycopgLtree
